import Mathlib

/-!
# Verification of the Junction Delta reconciliation engine

This file gives a shallow embedding of `src/junction/delta.py` (the Delta API:
page actions and their execution order), `src/junction/util.py` (`for_all`) and
the modification model of `src/junction/git/__init__.py`, together with a state
model of the remote Confluence content store as the code observes it through
`src/junction/confluence/api/content_api.py`.

The remote store is modelled as a list of pages, each carrying an id, an
optional parent id, a title, an optional version number and a body.  The space
homepage is an ordinary page of the state (`St.homeId` names it); pages created
without explicit ancestors are placed under the homepage, and the ancestor list
reported for a page therefore starts with the homepage, exactly as the code's
own comments describe (`delta.py` lines 326, 399-404).

Every action execution returns, besides its result, the final store state and
the list of remote calls (lookups and mutations) it issued, so ordering and
"no mutation" properties can be stated about the trace.  Exceptions of the
Python code are modelled with `Except`; the partially-mutated state and the
trace so far are kept on error, matching a propagating Python exception.
Recursion between the page-action classes (CreatePage ↔ EnsureAncestors,
DeletePage ↔ CleanupEmptyAncestors) is made total with an explicit fuel
argument; running out of fuel is a dedicated error.
-/

namespace Junction

/-- A page of the remote content store, as observable through the API:
id, parent link, title, version number (absent for pages whose version was
never observed) and body in storage representation. -/
structure Page where
  id : Nat
  parentId : Option Nat
  title : String
  version : Option Nat
  body : String
deriving DecidableEq, Repr

/-- The remote content store: its pages, the id of the space homepage, and the
next fresh id handed out on create. -/
structure St where
  pages : List Page
  homeId : Nat
  nextId : Nat
deriving DecidableEq, Repr

/-- A remote call issued during execution.  `lookup` is a read; the other
three are mutations. -/
inductive Ev where
  | lookup (title : String)
  | createCall (parent : Option Nat) (title : String)
  | updateCall (id : Nat) (version : Nat) (title : String) (parent : Option Nat)
      (body : Option String)
  | deleteCall (id : Nat)
deriving DecidableEq, Repr

/-- Whether a remote call mutates the store. -/
def Ev.isMutation : Ev → Bool
  | .lookup _ => false
  | _ => true

/-- `git.ModificationType`. -/
inductive ModificationType where
  | ADD
  | RENAME
  | DELETE
  | MODIFY
  | UNKNOWN
deriving DecidableEq, Repr

/-- The errors the Delta engine can raise (Python exceptions). -/
inductive DErr where
  | ambiguousTitle (t : String)
  | noPageToMove (t : String)
  | ancestorsAssert
  | emptyAncestorChain
  | missingId
  | unsupportedModification (ty : ModificationType)
  | outOfFuel
deriving DecidableEq, Repr

/-- Result of executing a page action: outcome (the page returned by
create/update style actions, if any), final store state, trace of remote
calls issued. -/
abbrev Res := Except DErr (Option Page) × St × List Ev

/-- All pages currently carrying a given title (the `get_page(title=...)`
query restricted to the space). -/
def lookupTitle (st : St) (t : String) : List Page :=
  st.pages.filter (fun p => p.title = t)

/-- Find a page by id. -/
def findById (pages : List Page) (i : Nat) : Option Page :=
  pages.find? (fun p => p.id = i)

/-- Walk the parent links upward; the result lists the ancestors root-first,
so for a page below the homepage the first entry is the homepage itself, as
the `ancestors` expansion of the API reports it.  The fuel bounds the walk on
malformed (cyclic) states. -/
def chainPages (pages : List Page) : Nat → Option Nat → List Page
  | _, none => []
  | 0, some _ => []
  | Nat.succ fuel, some pid =>
    match findById pages pid with
    | none => []
    | some q => chainPages pages fuel q.parentId ++ [q]

/-- The ancestor list of a page as the API reports it (root-first, homepage
included). -/
def ancestorsOf (st : St) (p : Page) : List Page :=
  chainPages st.pages st.pages.length p.parentId

/-- The version number placed in an update request:
`number + 1` when a version with a truthy number was observed, else `2`
(`delta.py` lines 149-153 and 339-342). -/
def nextVersion : Option Nat → Nat
  | some n => if n = 0 then 2 else n + 1
  | none => 2

/-- An update request (`UpdateContent`): new title, new version number,
optional new parent (absent ancestors leave the parent unchanged), optional
new body (a move sends no body). -/
structure UpdateContent where
  title : String
  version : Nat
  parent : Option Nat
  body : Option String
deriving DecidableEq, Repr

/-- A create request (`CreateContent`): title, optional parent id (absent
means the page is created under the space homepage), body. -/
structure CreateContent where
  title : String
  parent : Option Nat
  body : String
deriving DecidableEq, Repr

/-- Server semantics of `create_content`: a fresh page, appended to the
store, parented under the requested parent or the homepage. -/
def createContent (st : St) (c : CreateContent) : Page × St :=
  let pg : Page :=
    { id := st.nextId, parentId := some (c.parent.getD st.homeId),
      title := c.title, version := some 1, body := c.body }
  (pg, { st with pages := st.pages ++ [pg], nextId := st.nextId + 1 })

/-- Server semantics of `update_content` on a given id: applies title,
version, parent (when requested) and body (when sent) to the page with that
id; `none` when no page carries the id. -/
def updateContent (st : St) (i : Nat) (u : UpdateContent) : Option (Page × St) :=
  let upd : Page → Page := fun p =>
    { p with
      title := u.title
      version := some u.version
      parentId := match u.parent with | some pid => some pid | none => p.parentId
      body := match u.body with | some b => b | none => p.body }
  match findById st.pages i with
  | none => none
  | some q =>
    some (upd q, { st with pages := st.pages.map (fun p => if p.id = i then upd p else p) })

/-- Server semantics of `delete_content`: remove the page with the given id. -/
def deleteContent (st : St) (i : Nat) : St :=
  { st with pages := st.pages.filter (fun p => p.id ≠ i) }

/-- `PageAction.fetch_target_page`: at most one page may carry the target
title; more than one is a fatal ambiguity error. -/
def fetchTarget (st : St) (t : String) : Except DErr (Option Page) :=
  match lookupTitle st t with
  | [] => .ok none
  | [p] => .ok (some p)
  | _ => .error (.ambiguousTitle t)

/-- The placeholder body of an automatically created index page
(`EnsureAncestors.PAGE_BODY_LIST_CHILDREN`). -/
def PAGE_BODY_LIST_CHILDREN : String :=
  "<p><ac:structured-macro ac:name=\"children\" ac:schema-version=\"2\" ac:macro-id=\"92c7a2c4-5cca-4ecf-81a2-946ef7388c71\" /></p>"

/-- The page actions of the Delta API.  `create`, `update`, `move` and `del`
are the four actions a Delta holds; `ensure` (EnsureAncestors) and `cleanup`
(CleanupEmptyAncestors) are the two recursive helpers they invoke. -/
inductive Act where
  | create (title body : String) (ancestors : List String)
  | update (title body : String) (ancestors : List String)
  | move (title newTitle : String) (ancestors : List String)
  | del (title : String)
  | ensure (ancestors : List String)
  | cleanup (title : String)
deriving DecidableEq, Repr

/-- Executes one page action against the store, mirroring the `execute`
methods of `delta.py` branch for branch.  Fuel bounds the mutual recursion
between the action classes. -/
def execAct : Nat → Act → St → Res
  | 0, _, st => (.error .outOfFuel, st, [])
  | Nat.succ fuel, act, st =>
    match act with
    | .create t body anc =>
      -- CreatePage.execute, delta.py lines 197-241
      match fetchTarget st t with
      | .error e => (.error e, st, [.lookup t])
      | .ok (some _) =>
        -- already exists: update instead (replay path)
        let (r, st1, tr) := execAct fuel (.update t body anc) st
        (r, st1, .lookup t :: tr)
      | .ok none =>
        match anc with
        | [] =>
          let (pg, st1) := createContent st { title := t, parent := none, body := body }
          (.ok (some pg), st1, [.lookup t, .createCall none t])
        | _ =>
          match execAct fuel (.ensure anc) st with
          | (.error e, st1, tr) => (.error e, st1, .lookup t :: tr)
          | (.ok none, st1, tr) => (.error .missingId, st1, .lookup t :: tr)
          | (.ok (some parent), st1, tr) =>
            let (pg, st2) :=
              createContent st1 { title := t, parent := some parent.id, body := body }
            (.ok (some pg), st2, .lookup t :: tr ++ [.createCall (some parent.id) t])
    | .ensure anc =>
      -- EnsureAncestors.execute, delta.py lines 244-287: targets the last
      -- title of the chain, with the preceding prefix as its own requirement
      match anc.getLast? with
      | none => (.error .emptyAncestorChain, st, [])
      | some lastT =>
        match fetchTarget st lastT with
        | .error e => (.error e, st, [.lookup lastT])
        | .ok (some p) => (.ok (some p), st, [.lookup lastT])
        | .ok none =>
          let (r, st1, tr) :=
            execAct fuel (.create lastT PAGE_BODY_LIST_CHILDREN anc.dropLast) st
          (r, st1, .lookup lastT :: tr)
    | .update t body anc =>
      -- UpdatePage.execute, delta.py lines 310-370
      match fetchTarget st t with
      | .error e => (.error e, st, [.lookup t])
      | .ok none =>
        -- does not exist: create instead (replay path)
        let (r, st1, tr) := execAct fuel (.create t body anc) st
        (r, st1, .lookup t :: tr)
      | .ok (some existing) =>
        -- current ancestors with the leading space homepage dropped
        let currentAncestors := ((ancestorsOf st existing).map (fun x => x.title)).drop 1
        if anc = currentAncestors then
          let u : UpdateContent :=
            { title := t, version := nextVersion existing.version,
              parent :=
                match (ancestorsOf st existing).getLast? with
                | some par => some par.id
                | none => none,
              body := some body }
          match updateContent st existing.id u with
          | some (pg, st1) =>
            (.ok (some pg), st1,
              [.lookup t, .updateCall existing.id u.version t u.parent u.body])
          | none => (.error .missingId, st, [.lookup t])
        else
          (.error .ancestorsAssert, st, [.lookup t])
    | .move t nt anc =>
      -- MovePage.execute, delta.py lines 102-177
      match fetchTarget st t with
      | .error e => (.error e, st, [.lookup t])
      | .ok none =>
        if (lookupTitle st nt).length = 1 then
          -- already moved previously: success without mutation
          (.ok none, st, [.lookup t, .lookup nt])
        else
          (.error (.noPageToMove t), st, [.lookup t, .lookup nt])
      | .ok (some oldPage) =>
        let afterParent : Option Page → St → List Ev → Res :=
          fun parentOpt st1 tr1 =>
            let u : UpdateContent :=
              { title := nt, version := nextVersion oldPage.version,
                parent := parentOpt.map (fun c => c.id), body := none }
            match updateContent st1 oldPage.id u with
            | none => (.error .missingId, st1, tr1)
            | some (_, st2) =>
              let tr2 := tr1 ++ [.updateCall oldPage.id u.version nt u.parent none]
              match (ancestorsOf st oldPage).getLast? with
              | some par =>
                if par.title ≠ "" then
                  match execAct fuel (.cleanup par.title) st2 with
                  | (.error e, st3, tr3) => (.error e, st3, tr2 ++ tr3)
                  | (.ok _, st3, tr3) => (.ok none, st3, tr2 ++ tr3)
                else (.ok none, st2, tr2)
              | none => (.ok none, st2, tr2)
        match anc with
        | [] => afterParent none st [.lookup t]
        | _ =>
          match execAct fuel (.ensure anc) st with
          | (.error e, st1, tr) => (.error e, st1, .lookup t :: tr)
          | (.ok none, st1, tr) => (.error .missingId, st1, .lookup t :: tr)
          | (.ok (some parent), st1, tr) => afterParent (some parent) st1 (.lookup t :: tr)
    | .del t =>
      -- DeletePage.execute, delta.py lines 376-404
      match fetchTarget st t with
      | .error e => (.error e, st, [.lookup t])
      | .ok none => (.ok none, st, [.lookup t])
      | .ok (some page) =>
        let st1 := deleteContent st page.id
        let tr1 : List Ev := [.lookup t, .deleteCall page.id]
        match (ancestorsOf st page).getLast? with
        | some par =>
          if par.title ≠ "" then
            match execAct fuel (.cleanup par.title) st1 with
            | (.error e, st2, tr2) => (.error e, st2, tr1 ++ tr2)
            | (.ok _, st2, tr2) => (.ok none, st2, tr1 ++ tr2)
          else (.ok none, st1, tr1)
        | none => (.ok none, st1, tr1)
    | .cleanup t =>
      -- CleanupEmptyAncestors.execute, delta.py lines 411-441
      match fetchTarget st t with
      | .error e => (.error e, st, [.lookup t])
      | .ok none => (.ok none, st, [.lookup t])
      | .ok (some page) =>
        if st.pages.any (fun c => c.parentId = some page.id) then
          -- still has child pages: stop without deleting
          (.ok none, st, [.lookup t])
        else
          let (r, st1, tr) := execAct fuel (.del t) st
          (r, st1, .lookup t :: tr)

/-- `util.for_all`: run an action for every item in order; an error stops the
run and propagates (a Python exception). -/
def for_all {α : Type} : List α → (α → St → Res) → St → Res
  | [], _, st => (.ok none, st, [])
  | item :: items, action, st =>
    match action item st with
    | (.error e, st1, tr) => (.error e, st1, tr)
    | (.ok _, st1, tr) =>
      let (r, st2, tr2) := for_all items action st1
      (r, st2, tr ++ tr2)

/-- Sequencing of two executions: the second runs only if the first
succeeded; traces concatenate. -/
def andThen (r : Res) (f : St → Res) : Res :=
  match r with
  | (.error e, st, tr) => (.error e, st, tr)
  | (.ok _, st, tr) =>
    let (r2, st2, tr2) := f st
    (r2, st2, tr ++ tr2)

/-- A Delta: the five buckets of page actions
(`Delta.__init__`, delta.py lines 447-452). -/
structure Delta where
  deletes : List Act
  start_renames : List Act
  updates : List Act
  adds : List Act
  finish_renames : List Act
deriving DecidableEq, Repr

/-- `Delta.execute`, delta.py lines 454-472: five `for_all` passes in the
fixed order deletes, start_renames, adds, finish_renames, updates. -/
def Delta.execute (fuel : Nat) (d : Delta) (st : St) : Res :=
  andThen (for_all d.deletes (execAct fuel) st) (fun s1 =>
    andThen (for_all d.start_renames (execAct fuel) s1) (fun s2 =>
      andThen (for_all d.adds (execAct fuel) s2) (fun s3 =>
        andThen (for_all d.finish_renames (execAct fuel) s3) (fun s4 =>
          for_all d.updates (execAct fuel) s4))))

/-! ## Modifications (`src/junction/git/__init__.py`) and `Delta.from_modifications` -/

/-- A filesystem modification.  Paths are modelled as their list of
segments (`pathlib.Path.parts`). -/
structure Modification where
  old_path : Option (List String)
  new_path : Option (List String)
  change_type : ModificationType
  source_code : Option String
deriving DecidableEq, Repr

/-- `Modification.previous_path`: the old path, exposed only for renames. -/
def Modification.previous_path (m : Modification) : Option (List String) :=
  if m.change_type = .RENAME then m.old_path else none

/-- `Modification.path`: the new path when present, else the old path. -/
def Modification.path (m : Modification) : Option (List String) :=
  match m.new_path with
  | some p => some p
  | none => m.old_path

/-- `pathlib.PurePath.stem`: the final component without its last suffix;
the suffix counts only when the final dot is neither leading nor trailing. -/
def stem (s : String) : String :=
  let cs := s.toList
  match ((List.range cs.length).filter (fun i => cs.getD i ' ' = '.')).getLast? with
  | some i => if 0 < i ∧ i < cs.length - 1 then ⟨cs.take i⟩ else s
  | none => s

/-- The empty Delta (`Delta.__init__`). -/
def Delta.empty : Delta :=
  { deletes := [], start_renames := [], updates := [], adds := [], finish_renames := [] }

/-- The loop body of `Delta.from_modifications` (delta.py lines 489-521),
threading the bucket accumulator and a counter into the supply `toks` of
fresh unique tokens (`uuid4`).  `compile` is the markdown compiler
(`markdown_to_storage`), kept abstract. -/
def fromModificationsGo (compile : Option String → String) (toks : Nat → String) :
    List Modification → Nat → Delta → Except DErr Delta
  | [], _, acc => .ok acc
  | m :: rest, k, acc =>
    match m.path with
    | none => fromModificationsGo compile toks rest k acc
    | some p =>
      let title := stem (p.getLast?.getD "")
      let ancestors := p.dropLast
      match m.change_type with
      | .ADD =>
        fromModificationsGo compile toks rest k
          { acc with adds := acc.adds ++ [.create title (compile m.source_code) ancestors] }
      | .MODIFY =>
        fromModificationsGo compile toks rest k
          { acc with updates := acc.updates ++ [.update title (compile m.source_code) ancestors] }
      | .DELETE =>
        fromModificationsGo compile toks rest k
          { acc with deletes := acc.deletes ++ [.del title] }
      | .RENAME =>
        match m.previous_path with
        | some pp =>
          let old_title := stem (pp.getLast?.getD "")
          let temporary_title := toks k ++ "_" ++ old_title
          fromModificationsGo compile toks rest (k + 1)
            { acc with
              start_renames := acc.start_renames ++ [.move old_title temporary_title []]
              finish_renames := acc.finish_renames ++
                [.move temporary_title title ancestors,
                 .update title (compile m.source_code) ancestors] }
        | none => .error (.unsupportedModification m.change_type)
      | .UNKNOWN => .error (.unsupportedModification m.change_type)

/-- `Delta.from_modifications`. -/
def Delta.from_modifications (compile : Option String → String) (toks : Nat → String)
    (mods : List Modification) : Except DErr Delta :=
  fromModificationsGo compile toks mods 0 Delta.empty

/-! ## Specification-side descriptions used in theorem statements -/

/-- The index pages EnsureAncestors creates for a fully missing chain:
one page per chain element, ids handed out consecutively from `nid`, each
parented under the page created just before it (the first under `pid`), all
with the placeholder child-listing body. -/
def ensurePages (pid nid : Nat) : List String → List Page
  | [] => []
  | a :: rest =>
    { id := nid, parentId := some pid, title := a, version := some 1,
      body := PAGE_BODY_LIST_CHILDREN } :: ensurePages nid (nid + 1) rest

/-- The create calls EnsureAncestors issues for a fully missing chain:
root-first, each referencing the id of the page created for the previous
chain element (the first referencing `par`). -/
def ensureCreates (par : Option Nat) (nid : Nat) : List String → List Ev
  | [] => []
  | a :: rest => .createCall par a :: ensureCreates (some nid) (nid + 1) rest

/-- The lookups EnsureAncestors issues for a fully missing chain: two per
element (EnsureAncestors itself, then the CreatePage it delegates to),
deepest element first. -/
def ensureLookups : List String → List Ev
  | [] => []
  | a :: rest => ensureLookups rest ++ [.lookup a, .lookup a]

/-- The update calls contained in a trace. -/
def updateCalls : List Ev → List Ev
  | [] => []
  | .updateCall i v t p b :: rest => .updateCall i v t p b :: updateCalls rest
  | .lookup _ :: rest => updateCalls rest
  | .createCall _ _ :: rest => updateCalls rest
  | .deleteCall _ :: rest => updateCalls rest


/-! ## Sample remote states used by concrete witnesses -/

/-- The space homepage of the sample store. -/
def pgHome : Page := { id := 0, parentId := none, title := "Home", version := some 1, body := "" }

/-- A page directly under the homepage. -/
def pgA : Page := { id := 1, parentId := some 0, title := "A", version := some 1, body := "xA" }

/-- An index page directly under the homepage. -/
def pgF : Page := { id := 2, parentId := some 0, title := "F", version := some 1, body := "xF" }

/-- A page under the index page `F`. -/
def pgC : Page := { id := 3, parentId := some 2, title := "C", version := some 1, body := "xC" }

/-- A small sample store: homepage, a leaf `A`, and a folder `F` holding `C`. -/
def sampleSt : St := { pages := [pgHome, pgA, pgF, pgC], homeId := 0, nextId := 4 }

end Junction

/-! ## Theorems -/

namespace Junction


theorem fetchTarget_ok_none (st : St) (t : String) (h : fetchTarget st t = .ok none) :
    lookupTitle st t = [] := by
  unfold fetchTarget at h
  rcases hl : lookupTitle st t with _ | ⟨p, _ | ⟨q, l⟩⟩ <;> simp [hl] at h
  rfl

theorem fetchTarget_ok_some (st : St) (t : String) (p : Page)
    (h : fetchTarget st t = .ok (some p)) : lookupTitle st t = [p] := by
  unfold fetchTarget at h
  rcases hl : lookupTitle st t with _ | ⟨q, _ | ⟨q2, l⟩⟩ <;> simp [hl] at h
  rw [h]

theorem updateCalls_nil : updateCalls [] = [] := rfl

theorem updateCalls_cons_lookup (t : String) (tr : List Ev) :
    updateCalls (.lookup t :: tr) = updateCalls tr := rfl

theorem updateCalls_cons_create (p : Option Nat) (t : String) (tr : List Ev) :
    updateCalls (.createCall p t :: tr) = updateCalls tr := rfl

theorem updateCalls_cons_delete (i : Nat) (tr : List Ev) :
    updateCalls (.deleteCall i :: tr) = updateCalls tr := rfl

theorem updateCalls_append (a b : List Ev) :
    updateCalls (a ++ b) = updateCalls a ++ updateCalls b := by
  induction a with
  | nil => rfl
  | cons e rest ih =>
    cases e <;> simp [updateCalls, ih]

theorem ensure_appends_no_upd : ∀ fuel : Nat,
    (∀ anc st, (∃ ex, (execAct fuel (.ensure anc) st).2.1.pages = st.pages ++ ex) ∧
        updateCalls (execAct fuel (.ensure anc) st).2.2 = []) ∧
    (∀ t b anc st, lookupTitle st t = [] →
        (∃ ex, (execAct fuel (.create t b anc) st).2.1.pages = st.pages ++ ex) ∧
        updateCalls (execAct fuel (.create t b anc) st).2.2 = []) := by
  intro fuel
  induction fuel with
  | zero =>
    constructor
    · intro anc st
      exact ⟨⟨[], by simp [execAct]⟩, by simp [execAct, updateCalls]⟩
    · intro t b anc st _
      exact ⟨⟨[], by simp [execAct]⟩, by simp [execAct, updateCalls]⟩
  | succ fuel ih =>
    constructor
    · intro anc st
      cases hgl : anc.getLast? with
      | none =>
        exact ⟨⟨[], by simp [execAct, hgl]⟩, by simp [execAct, hgl, updateCalls]⟩
      | some lastT =>
        cases hf : fetchTarget st lastT with
        | error e =>
          exact ⟨⟨[], by simp [execAct, hgl, hf]⟩, by simp [execAct, hgl, hf, updateCalls]⟩
        | ok o =>
          cases o with
          | some p =>
            exact ⟨⟨[], by simp [execAct, hgl, hf]⟩, by simp [execAct, hgl, hf, updateCalls]⟩
          | none =>
            have hmiss := fetchTarget_ok_none st lastT hf
            rcases hc : execAct fuel (.create lastT PAGE_BODY_LIST_CHILDREN anc.dropLast) st
              with ⟨r, st1, tr⟩
            have hih := (ih.2) lastT PAGE_BODY_LIST_CHILDREN anc.dropLast st hmiss
            rw [hc] at hih
            constructor
            · obtain ⟨ex, hex⟩ := hih.1
              exact ⟨ex, by simp [execAct, hgl, hf, hc]; exact hex⟩
            · simp only [execAct, hgl, hf, hc]
              simpa [updateCalls_cons_lookup] using hih.2
    · intro t b anc st hmiss
      have hf : fetchTarget st t = .ok none := by simp [fetchTarget, hmiss]
      cases anc with
      | nil =>
        constructor
        · simp only [execAct, hf, createContent]
          exact ⟨_, rfl⟩
        · simp [execAct, hf, createContent, updateCalls]
      | cons a anc2 =>
        rcases he : execAct fuel (.ensure (a :: anc2)) st with ⟨r1, st1, tr1⟩
        have hih := (ih.1) (a :: anc2) st
        rw [he] at hih
        obtain ⟨⟨ex, hex⟩, hupd⟩ := hih
        dsimp only at hex hupd
        cases r1 with
        | error e =>
          constructor
          · exact ⟨ex, by simp [execAct, hf, he]; exact hex⟩
          · simp only [execAct, hf, he]
            simpa [updateCalls_cons_lookup] using hupd
        | ok o =>
          cases o with
          | none =>
            constructor
            · exact ⟨ex, by simp [execAct, hf, he]; exact hex⟩
            · simp only [execAct, hf, he]
              simpa [updateCalls_cons_lookup] using hupd
          | some parent =>
            constructor
            · simp only [execAct, hf, he, createContent]
              exact ⟨_, by rw [hex, List.append_assoc]⟩
            · simp only [execAct, hf, he, createContent]
              rw [List.cons_append, updateCalls_cons_lookup, updateCalls_append, hupd]
              rfl

theorem for_all_append {α : Type} (f : α → St → Res) (xs ys : List α) (st : St) :
    for_all (xs ++ ys) f st = andThen (for_all xs f st) (for_all ys f) := by
  induction xs generalizing st with
  | nil =>
    rcases h : for_all ys f st with ⟨r, st2, tr⟩
    simp [for_all, andThen, h]
  | cons a xs ih =>
    rcases hf : f a st with ⟨r1, st1, tr1⟩
    cases r1 with
    | error e => simp [for_all, andThen, hf]
    | ok v =>
      rcases hxs : for_all xs f st1 with ⟨r2, st2, tr2⟩
      rcases hys : for_all ys f st2 with ⟨r3, st3, tr3⟩
      cases r2 with
      | error e => simp [for_all, andThen, hf, hxs, ih st1]
      | ok w => simp [for_all, andThen, hf, hxs, hys, ih st1, List.append_assoc]

/-- C1: `Delta.execute` applies its actions as exactly five sequential
passes in the fixed order deletes, startRenames, adds, finishRenames,
updates; running the five bucket lists back to back (each pass completing
in list order before the next begins) is the same as one sequential run of
their concatenation in that order. -/
theorem delta_execute_is_five_sequential_passes (fuel : Nat) (d : Delta) (st : St) :
    Delta.execute fuel d st =
      for_all
        (d.deletes ++ (d.start_renames ++ (d.adds ++ (d.finish_renames ++ d.updates))))
        (execAct fuel) st := by
  rw [for_all_append]
  unfold Delta.execute
  congr 1
  funext s1
  rw [for_all_append]
  congr 1
  funext s2
  rw [for_all_append]
  congr 1
  funext s3
  rw [for_all_append]

theorem del_cleanup_sublist : ∀ fuel : Nat,
    (∀ t st, ((execAct fuel (.del t) st).2.1.pages).Sublist st.pages) ∧
    (∀ t st, ((execAct fuel (.cleanup t) st).2.1.pages).Sublist st.pages) := by
  intro fuel
  induction fuel with
  | zero =>
    constructor <;> intro t st <;> simp [execAct]
  | succ fuel ih =>
    constructor
    · intro t st
      cases hf : fetchTarget st t with
      | error e => simp [execAct, hf]
      | ok o =>
        cases o with
        | none => simp [execAct, hf]
        | some page =>
          have hsub : (deleteContent st page.id).pages.Sublist st.pages :=
            List.filter_sublist st.pages
          cases hgl : (ancestorsOf st page).getLast? with
          | none => simp [execAct, hf, hgl, deleteContent]
          | some par =>
            by_cases hti : par.title = ""
            · simp [execAct, hf, hgl, hti, deleteContent]
            · rcases hc : execAct fuel (.cleanup par.title) (deleteContent st page.id)
                with ⟨r2, st2, tr2⟩
              have h2 := (ih.2) par.title (deleteContent st page.id)
              rw [hc] at h2
              have : st2.pages.Sublist st.pages := h2.trans hsub
              cases r2 <;> simpa [execAct, hf, hgl, hti, hc] using this
    · intro t st
      cases hf : fetchTarget st t with
      | error e => simp [execAct, hf]
      | ok o =>
        cases o with
        | none => simp [execAct, hf]
        | some page =>
          by_cases hch : (st.pages.any fun c => c.parentId = some page.id) = true
          · simp [execAct, hf, hch]
          · rcases hd : execAct fuel (.del t) st with ⟨r2, st2, tr2⟩
            have h2 := (ih.1) t st
            rw [hd] at h2
            simp [execAct, hf, hch, hd]
            exact h2



theorem del_cleanup_no_upd : ∀ fuel : Nat,
    (∀ t st, updateCalls (execAct fuel (.del t) st).2.2 = []) ∧
    (∀ t st, updateCalls (execAct fuel (.cleanup t) st).2.2 = []) := by
  intro fuel
  induction fuel with
  | zero => constructor <;> intro t st <;> simp [execAct, updateCalls]
  | succ fuel ih =>
    constructor
    · intro t st
      cases hf : fetchTarget st t with
      | error e => simp [execAct, hf, updateCalls]
      | ok o =>
        cases o with
        | none => simp [execAct, hf, updateCalls]
        | some page =>
          cases hgl : (ancestorsOf st page).getLast? with
          | none => simp [execAct, hf, hgl, updateCalls]
          | some par =>
            by_cases hti : par.title = ""
            · simp [execAct, hf, hgl, hti, updateCalls]
            · rcases hc : execAct fuel (.cleanup par.title) (deleteContent st page.id)
                with ⟨r2, st2, tr2⟩
              have h2 := (ih.2) par.title (deleteContent st page.id)
              rw [hc] at h2
              cases r2 <;> simp [execAct, hf, hgl, hti, hc, updateCalls, h2]
    · intro t st
      cases hf : fetchTarget st t with
      | error e => simp [execAct, hf, updateCalls]
      | ok o =>
        cases o with
        | none => simp [execAct, hf, updateCalls]
        | some page =>
          by_cases hch : (st.pages.any fun c => c.parentId = some page.id) = true
          · simp [execAct, hf, hch, updateCalls]
          · rcases hd : execAct fuel (.del t) st with ⟨r2, st2, tr2⟩
            have h2 := (ih.1) t st
            rw [hd] at h2
            simp [execAct, hf, hch, hd, updateCalls, h2]

theorem del_cleanup_safety : ∀ fuel : Nat,
    (∀ t st, (∀ p ∈ lookupTitle st t, ∀ c ∈ st.pages, c.parentId ≠ some p.id) →
      ∀ q c, q ∈ st.pages → c ∈ (execAct fuel (.del t) st).2.1.pages →
        c.parentId = some q.id → q ∈ (execAct fuel (.del t) st).2.1.pages) ∧
    (∀ t st, ∀ q c, q ∈ st.pages → c ∈ (execAct fuel (.cleanup t) st).2.1.pages →
      c.parentId = some q.id → q ∈ (execAct fuel (.cleanup t) st).2.1.pages) := by
  intro fuel
  induction fuel with
  | zero =>
    constructor
    · intro t st _ q c hq hc hpc
      simpa [execAct] using hq
    · intro t st q c hq hc hpc
      simpa [execAct] using hq
  | succ fuel ih =>
    constructor
    · intro t st hnochild q c hq hc hpc
      cases hf : fetchTarget st t with
      | error e => simp_all [execAct, hf]
      | ok o =>
        cases o with
        | none => simp_all [execAct, hf]
        | some page =>
          have hpage : lookupTitle st t = [page] := fetchTarget_ok_some st t page hf
          have hqid : q.id ≠ page.id := by
            intro hid
            have hcin : c ∈ st.pages := by
              have hsubl := (del_cleanup_sublist (fuel + 1)).1 t st
              exact hsubl.subset hc
            have := hnochild page (by rw [hpage]; exact List.mem_singleton.mpr rfl) c hcin
            rw [hpc, hid] at this
            exact this rfl
          have hqdel : q ∈ (deleteContent st page.id).pages := by
            simp [deleteContent, List.mem_filter, hq, hqid]
          cases hgl : (ancestorsOf st page).getLast? with
          | none =>
            simp only [execAct, hf, hgl] at hc ⊢
            exact hqdel
          | some par =>
            by_cases hti : par.title = ""
            · simp only [execAct, hf, hgl, hti] at hc ⊢
              simpa [deleteContent] using hqdel
            · rcases hcl : execAct fuel (.cleanup par.title) (deleteContent st page.id)
                with ⟨r2, st2, tr2⟩
              have hsafe := (ih.2) par.title (deleteContent st page.id) q c hqdel
              rw [hcl] at hsafe
              cases r2 with
              | error e =>
                simp [execAct, hf, hgl, hti, hcl] at hc ⊢
                exact hsafe hc hpc
              | ok v =>
                simp [execAct, hf, hgl, hti, hcl] at hc ⊢
                exact hsafe hc hpc
    · intro t st q c hq hc hpc
      cases hf : fetchTarget st t with
      | error e => simp_all [execAct, hf]
      | ok o =>
        cases o with
        | none => simp_all [execAct, hf]
        | some page =>
          have hpage : lookupTitle st t = [page] := fetchTarget_ok_some st t page hf
          by_cases hch : (st.pages.any fun cc => cc.parentId = some page.id) = true
          · simp_all [execAct, hf, hch]
          · have hnochild : ∀ p ∈ lookupTitle st t, ∀ cc ∈ st.pages, cc.parentId ≠ some p.id := by
              intro p hp cc hcc
              rw [hpage] at hp
              rcases List.mem_singleton.mp hp with rfl
              intro hbad
              exact hch (List.any_eq_true.mpr ⟨cc, hcc, by simp [hbad]⟩)
            rcases hd : execAct fuel (.del t) st with ⟨r2, st2, tr2⟩
            have hsafe := (ih.1) t st hnochild q c hq
            rw [hd] at hsafe
            simp only [execAct, hf, hch, hd] at hc ⊢
            exact hsafe hc hpc

theorem updateCalls_of_cleanup {fuel : Nat} {t : String} {st : St}
    {r : Except DErr (Option Page)} {st1 : St} {tr : List Ev}
    (h : execAct fuel (.cleanup t) st = (r, st1, tr)) : updateCalls tr = [] := by
  have h0 := (del_cleanup_no_upd fuel).2 t st
  rw [h] at h0
  exact h0

theorem updateCalls_of_ensure {fuel : Nat} {anc : List String} {st : St}
    {r : Except DErr (Option Page)} {st1 : St} {tr : List Ev}
    (h : execAct fuel (.ensure anc) st = (r, st1, tr)) : updateCalls tr = [] := by
  have h0 := ((ensure_appends_no_upd fuel).1 anc st).2
  rw [h] at h0
  exact h0

theorem pages_append_of_ensure {fuel : Nat} {anc : List String} {st : St}
    {r : Except DErr (Option Page)} {st1 : St} {tr : List Ev}
    (h : execAct fuel (.ensure anc) st = (r, st1, tr)) :
    ∃ ex, st1.pages = st.pages ++ ex := by
  have h0 := ((ensure_appends_no_upd fuel).1 anc st).1
  rw [h] at h0
  exact h0

theorem mem_of_lookupTitle_single {st : St} {t : String} {p : Page}
    (h : lookupTitle st t = [p]) : p ∈ st.pages := by
  have hmem : p ∈ lookupTitle st t := by rw [h]; exact List.mem_singleton.mpr rfl
  exact (List.mem_filter.mp hmem).1

theorem findById_of_mem {st : St} {p : Page} (h : p ∈ st.pages) :
    ∃ q, findById st.pages p.id = some q := by
  rcases hf : findById st.pages p.id with _ | q
  · exfalso
    have := List.find?_eq_none.mp hf p h
    simp at this
  · exact ⟨q, rfl⟩

theorem findById_append_some {l1 : List Page} {i : Nat} {q : Page} (l2 : List Page)
    (h : findById l1 i = some q) : findById (l1 ++ l2) i = some q := by
  unfold findById at h ⊢
  induction l1 with
  | nil => simp at h
  | cons a l ih =>
    rw [List.cons_append]
    rw [List.find?_cons] at h ⊢
    cases hpa : (decide (a.id = i)) with
    | true =>
      simp only [hpa] at h
      dsimp only at h ⊢
      exact h
    | false =>
      simp only [hpa] at h
      dsimp only at h ⊢
      exact ih h


/-- C5: CleanupEmptyAncestors never deletes a node that still has child
pages: any page with a child surviving cleanup survives itself; when the
target still has children the action stops without deleting anything, and
when the target is missing it is a no-op. -/
theorem cleanup_never_deletes_nonempty (fuel : Nat) (t : String) (st : St)
    (r : Except DErr (Option Page)) (st1 : St) (tr : List Ev)
    (h : execAct (fuel + 1) (.cleanup t) st = (r, st1, tr)) :
    (∀ q c, q ∈ st.pages → c ∈ st1.pages → c.parentId = some q.id → q ∈ st1.pages) ∧
    (∀ p, lookupTitle st t = [p] →
      (st.pages.any fun c => c.parentId = some p.id) = true →
      r = .ok none ∧ st1 = st ∧ tr = [.lookup t]) ∧
    (lookupTitle st t = [] → r = .ok none ∧ st1 = st ∧ tr = [.lookup t]) := by
  refine ⟨?_, ?_, ?_⟩
  · intro q c hq hc hpc
    have hs := (del_cleanup_safety (fuel + 1)).2 t st q c hq
    rw [h] at hs
    exact hs hc hpc
  · intro p hp hch
    have hf : fetchTarget st t = .ok (some p) := by simp [fetchTarget, hp]
    have heval : execAct (fuel + 1) (Act.cleanup t) st = (.ok none, st, [.lookup t]) := by
      simp [execAct, hf, hch]
    rw [heval] at h
    injection h with h1 h2
    injection h2 with h2 h3
    exact ⟨h1.symm, h2.symm, h3.symm⟩
  · intro hp
    have hf : fetchTarget st t = .ok none := by simp [fetchTarget, hp]
    have heval : execAct (fuel + 1) (Act.cleanup t) st = (.ok none, st, [.lookup t]) := by
      simp [execAct, hf]
    rw [heval] at h
    injection h with h1 h2
    injection h2 with h2 h3
    exact ⟨h1.symm, h2.symm, h3.symm⟩

theorem cleanup_never_deletes_nonempty_witness :
    pgF ∈ sampleSt.pages ∧
    ((Except.ok (none : Option Page) : Except DErr (Option Page)) = .ok none ∧
      sampleSt = sampleSt ∧ [Ev.lookup "F"] = [Ev.lookup "F"]) :=
  ⟨(cleanup_never_deletes_nonempty 4 "F" sampleSt (.ok none) sampleSt [.lookup "F"] rfl).1
      pgF pgC (by decide) (by decide) (by decide),
   (cleanup_never_deletes_nonempty 4 "F" sampleSt (.ok none) sampleSt [.lookup "F"] rfl).2.1
      pgF (by decide) (by decide)⟩

/-- C6 (code bug): `DeletePage` is a no-op when the title is missing and
deletes by id when found, but the guard before the cleanup cascade checks
the API-reported ancestor list, which always starts with the space
homepage.  For a page whose ancestor-title chain excluding the root is
empty (a direct child of the homepage) the code therefore still triggers
CleanupEmptyAncestors — on the homepage title — and can delete the space
homepage, contradicting the code's own comment (delta.py lines 399-403)
and the claim.  Here `A` sits directly under the homepage: its chain
excluding the root is empty, yet the trace shows cleanup lookups on
"Home" and the deletion of the homepage itself. -/
theorem delete_page_cleanup_reaches_homepage :
    (((ancestorsOf
        { pages := [{ id := 0, parentId := none, title := "Home", version := some 1, body := "" },
                    { id := 1, parentId := some 0, title := "A", version := some 1, body := "x" }],
          homeId := 0, nextId := 2 }
        { id := 1, parentId := some 0, title := "A", version := some 1, body := "x" }).map
      (fun x => x.title)).drop 1 = []) ∧
    execAct 10 (.del "A")
        { pages := [{ id := 0, parentId := none, title := "Home", version := some 1, body := "" },
                    { id := 1, parentId := some 0, title := "A", version := some 1, body := "x" }],
          homeId := 0, nextId := 2 } =
      (.ok none, { pages := [], homeId := 0, nextId := 2 },
        [.lookup "A", .deleteCall 1, .lookup "Home", .lookup "Home", .deleteCall 0]) :=
  ⟨rfl, rfl⟩

/-- C7: MovePage with a missing source title returns successfully without
any mutation when a page already sits at the new title, and raises the
unreconcilable-state error (rather than silently succeeding) when neither
the source nor the new title exists. -/
theorem move_page_missing_source_behavior (fuel : Nat) (t nt : String)
    (anc : List String) (st : St) (hsrc : lookupTitle st t = []) :
    ((lookupTitle st nt).length = 1 →
      execAct (fuel + 1) (.move t nt anc) st = (.ok none, st, [.lookup t, .lookup nt])) ∧
    (lookupTitle st nt = [] →
      execAct (fuel + 1) (.move t nt anc) st =
        (.error (.noPageToMove t), st, [.lookup t, .lookup nt])) := by
  constructor
  · intro h1
    simp [execAct, fetchTarget, hsrc, h1]
  · intro h0
    simp [execAct, fetchTarget, hsrc, h0]

theorem move_page_missing_source_behavior_witness :
    (execAct 6 (.move "Ghost" "A" []) sampleSt =
      (.ok none, sampleSt, [.lookup "Ghost", .lookup "A"])) ∧
    (execAct 6 (.move "Ghost" "GhostNew" []) sampleSt =
      (.error (.noPageToMove "Ghost"), sampleSt, [.lookup "Ghost", .lookup "GhostNew"])) :=
  ⟨(move_page_missing_source_behavior 5 "Ghost" "A" [] sampleSt rfl).1 (by decide),
   (move_page_missing_source_behavior 5 "Ghost" "GhostNew" [] sampleSt rfl).2 rfl⟩

/-- C8: UpdatePage on an existing node raises the fatal ancestor-assertion
error, without submitting any update, whenever the requested ancestor-title
chain differs from the node's current chain (the reported ancestors with
the leading space homepage dropped); the update request is submitted only
when the chains are exactly equal. -/
theorem update_page_ancestor_assertion (fuel : Nat) (t body : String)
    (anc : List String) (st : St) (p : Page) (hfind : lookupTitle st t = [p]) :
    (anc ≠ ((ancestorsOf st p).map (fun x => x.title)).drop 1 →
      execAct (fuel + 1) (.update t body anc) st =
        (.error .ancestorsAssert, st, [.lookup t])) ∧
    (anc = ((ancestorsOf st p).map (fun x => x.title)).drop 1 →
      ∃ pg st1,
        execAct (fuel + 1) (.update t body anc) st =
          (.ok (some pg), st1,
            [.lookup t,
             .updateCall p.id (nextVersion p.version) t
               (((ancestorsOf st p).getLast?).map (fun q => q.id)) (some body)])) := by
  have hp_mem : p ∈ st.pages := by
    have hmem : p ∈ lookupTitle st t := by rw [hfind]; exact List.mem_singleton.mpr rfl
    exact (List.mem_filter.mp hmem).1
  have hfid : ∃ q, findById st.pages p.id = some q := by
    rcases h : findById st.pages p.id with _ | q
    · exfalso
      have := List.find?_eq_none.mp h p hp_mem
      simp at this
    · exact ⟨q, rfl⟩
  constructor
  · intro hne
    simp only [List.drop_one] at hne
    simp [execAct, fetchTarget, hfind, hne]
  · intro heq
    simp only [List.drop_one] at heq
    obtain ⟨q, hq⟩ := hfid
    cases hgl : (ancestorsOf st p).getLast? with
    | none =>
      simp [execAct, fetchTarget, hfind, heq, hgl, updateContent, hq]
    | some par =>
      simp [execAct, fetchTarget, hfind, heq, hgl, updateContent, hq]

theorem update_page_ancestor_assertion_witness :
    (execAct 5 (.update "A" "b" ["F"]) sampleSt =
      (.error .ancestorsAssert, sampleSt, [.lookup "A"])) ∧
    (∃ pg st1, execAct 5 (.update "A" "b" []) sampleSt =
      (.ok (some pg), st1,
        [.lookup "A",
         .updateCall pgA.id (nextVersion pgA.version) "A"
           (((ancestorsOf sampleSt pgA).getLast?).map (fun q => q.id)) (some "b")])) :=
  ⟨(update_page_ancestor_assertion 4 "A" "b" ["F"] sampleSt pgA rfl).1 (by decide),
   (update_page_ancestor_assertion 4 "A" "b" [] sampleSt pgA rfl).2 (by decide)⟩

/-- C9: every update request built by UpdatePage or MovePage for an existing
node carries version number `current + 1` (and `2` when the node has no
observable prior version number); UpdatePage stores exactly that number on
the page, so a successful update increases the stored version by one under
read-before-write. -/
theorem update_request_version_numbers (fuel : Nat) (t nt body : String)
    (anc manc : List String) (st : St) (p : Page)
    (hfind : lookupTitle st t = [p])
    (hanc : anc = ((ancestorsOf st p).map (fun x => x.title)).drop 1) :
    (∀ n, p.version = some n → 1 ≤ n → nextVersion p.version = n + 1) ∧
    (p.version = none → nextVersion p.version = 2) ∧
    (∃ pg st1 par,
      execAct (fuel + 1) (.update t body anc) st =
        (.ok (some pg), st1,
          [.lookup t, .updateCall p.id (nextVersion p.version) t par (some body)]) ∧
      ∀ q ∈ st1.pages, q.id = p.id → q.version = some (nextVersion p.version)) ∧
    (∀ r st1 tr, execAct (fuel + 1) (.move t nt manc) st = (.ok r, st1, tr) →
      ∃ par, updateCalls tr = [.updateCall p.id (nextVersion p.version) nt par none]) := by
  have hp_mem : p ∈ st.pages := mem_of_lookupTitle_single hfind
  obtain ⟨q, hq⟩ := findById_of_mem hp_mem
  have hf : fetchTarget st t = .ok (some p) := by simp [fetchTarget, hfind]
  refine ⟨?_, ?_, ?_, ?_⟩
  · intro n hn h1
    simp [nextVersion, hn]
    omega
  · intro hn
    simp [nextVersion, hn]
  · simp only [List.drop_one] at hanc
    cases hgl : (ancestorsOf st p).getLast? with
    | none =>
      refine ⟨_, _, _,
        by simp [execAct, hf, hanc, hgl, updateContent, hq]; exact ⟨rfl, rfl, rfl⟩, ?_⟩
      intro x hx hxid
      simp only [execAct, hf] at hx
      simp [hanc, hgl, updateContent, hq] at hx
      obtain ⟨y, hy, hyx⟩ := hx
      by_cases hyid : y.id = p.id
      · simp [hyid] at hyx
        rw [← hyx]
      · simp [hyid] at hyx
        rw [← hyx] at hxid
        exact absurd hxid hyid
    | some par =>
      refine ⟨_, _, _,
        by simp [execAct, hf, hanc, hgl, updateContent, hq]; exact ⟨rfl, rfl, rfl⟩, ?_⟩
      intro x hx hxid
      simp only [execAct, hf] at hx
      simp [hanc, hgl, updateContent, hq] at hx
      obtain ⟨y, hy, hyx⟩ := hx
      by_cases hyid : y.id = p.id
      · simp [hyid] at hyx
        rw [← hyx]
      · simp [hyid] at hyx
        rw [← hyx] at hxid
        exact absurd hxid hyid
  · intro r st1 tr hmove
    cases manc with
    | nil =>
      simp only [execAct, hf] at hmove
      rw [updateContent] at hmove
      simp only [hq, Option.map_none'] at hmove
      cases hgl : (ancestorsOf st p).getLast? with
      | none =>
        rw [hgl] at hmove
        dsimp only at hmove
        injection hmove with h1 h2
        injection h2 with h2 h3
        exact ⟨none, by rw [← h3]; rfl⟩
      | some par =>
        rw [hgl] at hmove
        dsimp only at hmove
        by_cases hti : par.title = ""
        · rw [if_neg (by simp [hti])] at hmove
          injection hmove with h1 h2
          injection h2 with h2 h3
          exact ⟨none, by rw [← h3]; rfl⟩
        · rw [if_pos hti] at hmove
          split at hmove
          · simp at hmove
          · rename_i v st3 tr3 hcl
            have hnuC := updateCalls_of_cleanup hcl
            injection hmove with h1 h2
            injection h2 with h2 h3
            refine ⟨none, ?_⟩
            rw [← h3]
            simp [updateCalls, updateCalls_append, hnuC]
    | cons a manc2 =>
      simp only [execAct, hf] at hmove
      split at hmove
      · simp at hmove
      · simp at hmove
      · rename_i parent stE trE hens
        have hnuE := updateCalls_of_ensure hens
        obtain ⟨ex, hex⟩ := pages_append_of_ensure hens
        have hqE : findById stE.pages p.id = some q := by
          rw [hex]; exact findById_append_some ex hq
        rw [updateContent] at hmove
        simp only [hqE] at hmove
        cases hgl : (ancestorsOf st p).getLast? with
        | none =>
          rw [hgl] at hmove
          dsimp only at hmove
          injection hmove with h1 h2
          injection h2 with h2 h3
          refine ⟨some parent.id, ?_⟩
          rw [← h3]
          simp [updateCalls, updateCalls_append, hnuE]
        | some par =>
          rw [hgl] at hmove
          dsimp only at hmove
          by_cases hti : par.title = ""
          · rw [if_neg (by simp [hti])] at hmove
            injection hmove with h1 h2
            injection h2 with h2 h3
            refine ⟨some parent.id, ?_⟩
            rw [← h3]
            simp [updateCalls, updateCalls_append, hnuE]
          · rw [if_pos hti] at hmove
            split at hmove
            · simp at hmove
            · rename_i v st3 tr3 hcl
              have hnuC := updateCalls_of_cleanup hcl
              injection hmove with h1 h2
              injection h2 with h2 h3
              refine ⟨some parent.id, ?_⟩
              rw [← h3]
              simp [updateCalls, updateCalls_append, hnuE, hnuC]

theorem update_request_version_numbers_witness :
    nextVersion pgC.version = 1 + 1 ∧
    (∃ pg st1 par,
      execAct 5 (.update "C" "b" ["F"]) sampleSt =
        (.ok (some pg), st1,
          [.lookup "C", .updateCall pgC.id (nextVersion pgC.version) "C" par (some "b")]) ∧
      ∀ q ∈ st1.pages, q.id = pgC.id → q.version = some (nextVersion pgC.version)) ∧
    (∃ par, updateCalls [Ev.lookup "C", Ev.updateCall 3 2 "C2" none none, Ev.lookup "F"] =
      [.updateCall pgC.id (nextVersion pgC.version) "C2" par none]) :=
  ⟨(update_request_version_numbers 4 "C" "C2" "b" ["F"] [] sampleSt pgC rfl (by decide)).1
      1 rfl (by decide),
   (update_request_version_numbers 4 "C" "C2" "b" ["F"] [] sampleSt pgC rfl (by decide)).2.2.1,
   (update_request_version_numbers 4 "C" "C2" "b" ["F"] [] sampleSt pgC rfl (by decide)).2.2.2
      none
      { pages := [{ id := 0, parentId := none, title := "Home", version := some 1, body := "" },
                  { id := 1, parentId := some 0, title := "A", version := some 1, body := "xA" },
                  { id := 2, parentId := some 0, title := "F", version := some 1, body := "xF" },
                  { id := 3, parentId := some 2, title := "C2", version := some 2, body := "xC" }],
        homeId := 0, nextId := 4 }
      [Ev.lookup "C", Ev.updateCall 3 2 "C2" none none, Ev.lookup "F"] rfl⟩



/-- C2: a Rename modification with a previous path yields exactly three
actions: a MovePage from the old title to a unique-token-prefixed temporary
title in the startRenames bucket, then a MovePage from the temporary title
to the new title with the new ancestor chain followed by an UpdatePage of
the new title with the compiled content, both in that order in the
finishRenames bucket; no direct single move is produced. -/
theorem rename_builds_three_actions (compile : Option String → String)
    (toks : Nat → String) (m : Modification) (pp p : List String)
    (hty : m.change_type = .RENAME) (hold : m.old_path = some pp)
    (hpath : m.path = some p) :
    Delta.from_modifications compile toks [m] =
      .ok { deletes := [],
            start_renames :=
              [.move (stem (pp.getLast?.getD ""))
                (toks 0 ++ "_" ++ stem (pp.getLast?.getD "")) []],
            updates := [],
            adds := [],
            finish_renames :=
              [.move (toks 0 ++ "_" ++ stem (pp.getLast?.getD ""))
                (stem (p.getLast?.getD "")) p.dropLast,
               .update (stem (p.getLast?.getD "")) (compile m.source_code) p.dropLast] } := by
  unfold Delta.from_modifications
  simp [fromModificationsGo, hpath, hty, Modification.previous_path, hold, Delta.empty]

theorem fromModificationsGo_all_pathless (compile : Option String → String)
    (toks : Nat → String) :
    ∀ (mods : List Modification) (k : Nat) (acc : Delta),
      (∀ x ∈ mods, x.path = none) →
      fromModificationsGo compile toks mods k acc = .ok acc := by
  intro mods
  induction mods with
  | nil => intro k acc _; rfl
  | cons m rest ih =>
    intro k acc hall
    have hm : m.path = none := hall m (List.mem_cons_self m rest)
    rw [fromModificationsGo, hm]
    exact ih k acc (fun x hx => hall x (List.mem_cons_of_mem m hx))

/-- C10: a Modification whose resolved path is absent is silently skipped
by the Delta builder, whatever its change type; a batch of pathless
modifications (including Unknown ones) builds successfully, so the
unsupported-modification error can only arise for modifications with a
resolvable path. -/
theorem pathless_modifications_skipped (compile : Option String → String)
    (toks : Nat → String) (m : Modification) (rest : List Modification)
    (k : Nat) (acc : Delta) (mods : List Modification)
    (hm : m.path = none) (hall : ∀ x ∈ mods, x.path = none) :
    fromModificationsGo compile toks (m :: rest) k acc =
      fromModificationsGo compile toks rest k acc ∧
    Delta.from_modifications compile toks mods = .ok Delta.empty := by
  constructor
  · rw [fromModificationsGo, hm]
  · exact fromModificationsGo_all_pathless compile toks mods 0 Delta.empty hall

theorem rename_builds_three_actions_witness :
    Delta.from_modifications (fun _ => "X") (fun _ => "u")
      [{ old_path := some ["Foo.md"], new_path := some ["Bar", "Foo.md"],
         change_type := .RENAME, source_code := some "body" }] =
      .ok { deletes := [],
            start_renames := [.move "Foo" "u_Foo" []],
            updates := [],
            adds := [],
            finish_renames :=
              [.move "u_Foo" "Foo" ["Bar"], .update "Foo" "X" ["Bar"]] } :=
  rename_builds_three_actions (fun _ => "X") (fun _ => "u")
    { old_path := some ["Foo.md"], new_path := some ["Bar", "Foo.md"],
      change_type := .RENAME, source_code := some "body" }
    ["Foo.md"] ["Bar", "Foo.md"] rfl rfl rfl

theorem pathless_modifications_skipped_witness :
    fromModificationsGo (fun _ => "X") (fun _ => "u")
      [{ old_path := none, new_path := none, change_type := .UNKNOWN, source_code := none }]
      0 Delta.empty =
      fromModificationsGo (fun _ => "X") (fun _ => "u") [] 0 Delta.empty ∧
    Delta.from_modifications (fun _ => "X") (fun _ => "u")
      [{ old_path := none, new_path := none, change_type := .UNKNOWN, source_code := none }] =
      .ok Delta.empty :=
  pathless_modifications_skipped (fun _ => "X") (fun _ => "u")
    { old_path := none, new_path := none, change_type := .UNKNOWN, source_code := none }
    [] 0 Delta.empty
    [{ old_path := none, new_path := none, change_type := .UNKNOWN, source_code := none }]
    rfl (by intro x hx; simp at hx; rw [hx]; rfl)


theorem ensurePages_concat (pid nid : Nat) (xs : List String) (a : String) :
    ensurePages pid nid (xs ++ [a]) =
      ensurePages pid nid xs ++
        [{ id := nid + xs.length,
           parentId := some (if xs.isEmpty then pid else nid + xs.length - 1),
           title := a, version := some 1, body := PAGE_BODY_LIST_CHILDREN }] := by
  induction xs generalizing pid nid with
  | nil => simp [ensurePages]
  | cons x xs ih =>
    rw [List.cons_append, ensurePages, ih, ensurePages]
    by_cases hxs : xs = []
    · subst hxs
      simp
    · have hne : xs.isEmpty = false := by
        cases xs with
        | nil => exact absurd rfl hxs
        | cons b l => rfl
      simp [hne]
      omega

theorem ensureCreates_concat (par : Option Nat) (nid : Nat) (xs : List String) (a : String) :
    ensureCreates par nid (xs ++ [a]) =
      ensureCreates par nid xs ++
        [.createCall (if xs.isEmpty then par else some (nid + xs.length - 1)) a] := by
  induction xs generalizing par nid with
  | nil => simp [ensureCreates]
  | cons x xs ih =>
    rw [List.cons_append, ensureCreates, ih, ensureCreates]
    by_cases hxs : xs = []
    · subst hxs
      simp
    · have hne : xs.isEmpty = false := by
        cases xs with
        | nil => exact absurd rfl hxs
        | cons b l => rfl
      simp [hne]

theorem ensureLookups_concat (xs : List String) (a : String) :
    ensureLookups (xs ++ [a]) = .lookup a :: .lookup a :: ensureLookups xs := by
  induction xs with
  | nil => rfl
  | cons x xs ih =>
    rw [List.cons_append, ensureLookups, ih, ensureLookups]
    simp

theorem ensurePages_last_id : ∀ (ys : List String) (pid nid : Nat) (lp : Page),
    (ensurePages pid nid ys).getLast? = some lp → lp.id = nid + ys.length - 1 := by
  intro ys
  induction ys with
  | nil => intro pid nid lp h; simp [ensurePages] at h
  | cons y rest ih =>
    intro pid nid lp h
    rw [ensurePages] at h
    cases hr : rest with
    | nil =>
      subst hr
      simp [ensurePages] at h
      rw [← h]
      simp
    | cons r rest2 =>
      subst hr
      rw [ensurePages, List.getLast?_cons_cons, ← ensurePages] at h
      have := ih nid (nid + 1) lp h
      simp [this]
      omega


theorem ensure_missing_run (as : List String) : ∀ (st : St) (fuel : Nat),
    as ≠ [] → (∀ a ∈ as, lookupTitle st a = []) → 2 * as.length ≤ fuel →
    execAct fuel (.ensure as) st =
      (.ok ((ensurePages st.homeId st.nextId as).getLast?),
       { st with pages := st.pages ++ ensurePages st.homeId st.nextId as,
                 nextId := st.nextId + as.length },
       ensureLookups as ++ ensureCreates none st.nextId as) := by
  induction as using List.reverseRecOn with
  | nil => intro st fuel h; exact absurd rfl h
  | append_singleton xs a ih =>
    intro st fuel _ hmiss hfuel
    obtain ⟨f2, rfl⟩ : ∃ f2, fuel = f2 + 2 := by
      refine ⟨fuel - 2, ?_⟩
      simp at hfuel
      omega
    have hma : lookupTitle st a = [] := hmiss a (by simp)
    have hfa : fetchTarget st a = .ok none := by simp [fetchTarget, hma]
    cases hxs : xs with
    | nil =>
      subst hxs
      simp only [List.nil_append] at hmiss ⊢
      simp [execAct, hfa, createContent, ensurePages, ensureCreates, ensureLookups]
    | cons x xs2 =>
      subst hxs
      have hih := ih st f2 (by simp) (fun b hb => hmiss b (List.mem_append_left [a] hb))
        (by simp at hfuel ⊢; omega)
      rcases hgl2 : (ensurePages st.homeId st.nextId (x :: xs2)).getLast? with _ | lp
      · exfalso
        rw [ensurePages] at hgl2
        simp at hgl2
      · rw [hgl2] at hih
        have hid := ensurePages_last_id (x :: xs2) st.homeId st.nextId lp hgl2
        show execAct (f2 + 2) (.ensure ((x :: xs2) ++ [a])) st = _
        simp only [execAct, List.getLast?_concat, hfa, List.dropLast_concat, hih]
        rw [ensurePages_concat, ensureCreates_concat, ensureLookups_concat,
          List.getLast?_concat]
        simp [hid, createContent, List.append_assoc]
        omega


/-- C4: on a chain none of whose titles exist, EnsureAncestors issues its
create calls root-first — the trace equals `ensureLookups` (all lookups,
deepest first, before any mutation) followed by `ensureCreates`, in which
the first create references no parent and each later create references the
id of the page just created for the previous chain element, so no create
request ever references a parent id that does not exist at the time of the
request; the chain's pages are appended with the fixed placeholder
child-listing body.  When the last title of the chain already exists,
EnsureAncestors returns that existing node after a single lookup, creating
nothing. -/
theorem ensure_ancestors_root_first (as : List String) (st : St) (fuel : Nat) :
    (as ≠ [] → (∀ a ∈ as, lookupTitle st a = []) → 2 * as.length ≤ fuel →
      execAct fuel (.ensure as) st =
        (.ok ((ensurePages st.homeId st.nextId as).getLast?),
         { st with pages := st.pages ++ ensurePages st.homeId st.nextId as,
                   nextId := st.nextId + as.length },
         ensureLookups as ++ ensureCreates none st.nextId as)) ∧
    (∀ lastT p, as.getLast? = some lastT → lookupTitle st lastT = [p] →
      execAct (fuel + 1) (.ensure as) st = (.ok (some p), st, [.lookup lastT])) := by
  constructor
  · exact fun h1 h2 h3 => ensure_missing_run as st fuel h1 h2 h3
  · intro lastT p hgl hp
    have hf : fetchTarget st lastT = .ok (some p) := by simp [fetchTarget, hp]
    simp [execAct, hgl, hf]

theorem ensure_ancestors_root_first_witness :
    (execAct 5 (.ensure ["P", "Q"]) { pages := [pgHome], homeId := 0, nextId := 1 } =
      (.ok ((ensurePages 0 1 ["P", "Q"]).getLast?),
       { pages := [pgHome] ++ ensurePages 0 1 ["P", "Q"], homeId := 0, nextId := 1 + 2 },
       ensureLookups ["P", "Q"] ++ ensureCreates none 1 ["P", "Q"])) ∧
    (execAct 6 (.ensure ["F"]) sampleSt = (.ok (some pgF), sampleSt, [.lookup "F"])) :=
  ⟨(ensure_ancestors_root_first ["P", "Q"] { pages := [pgHome], homeId := 0, nextId := 1 } 5).1
     (by decide) (by decide) (by decide),
   (ensure_ancestors_root_first ["F"] sampleSt 5).2 "F" pgF rfl rfl⟩


theorem lookupTitle_nil_of_sublist {st1 st2 : St} {t : String}
    (hsub : st1.pages.Sublist st2.pages) (h : lookupTitle st2 t = []) :
    lookupTitle st1 t = [] := by
  rw [lookupTitle, List.filter_eq_nil_iff] at h ⊢
  exact fun a ha => h a (hsub.subset ha)

theorem del_absent_noop (fuel : Nat) (t : String) (st : St)
    (h : lookupTitle st t = []) :
    execAct (fuel + 1) (.del t) st = (.ok none, st, [.lookup t]) := by
  simp [execAct, fetchTarget, h]

theorem del_success_absent : ∀ (fuel : Nat) (t : String) (st : St)
    (v : Option Page) (st1 : St) (tr : List Ev),
    execAct fuel (.del t) st = (.ok v, st1, tr) → lookupTitle st1 t = [] := by
  intro fuel t st v st1 tr h
  cases fuel with
  | zero => simp [execAct] at h
  | succ f =>
    cases hf : fetchTarget st t with
    | error e => simp [execAct, hf] at h
    | ok o =>
      cases o with
      | none =>
        have hl := fetchTarget_ok_none st t hf
        simp [execAct, hf] at h
        rw [← h.2.1]
        exact hl
      | some page =>
        have hl := fetchTarget_ok_some st t page hf
        have habs : lookupTitle (deleteContent st page.id) t = [] := by
          rw [lookupTitle, List.filter_eq_nil_iff]
          intro q hq hqt
          have hq2 := List.mem_filter.mp hq
          have hqlook : q ∈ lookupTitle st t := List.mem_filter.mpr ⟨hq2.1, hqt⟩
          rw [hl] at hqlook
          rcases List.mem_singleton.mp hqlook with rfl
          simp at hq2
        cases hgl : (ancestorsOf st page).getLast? with
        | none =>
          simp [execAct, hf, hgl] at h
          rw [← h.2.1]
          exact habs
        | some par =>
          by_cases hti : par.title = ""
          · simp [execAct, hf, hgl, hti] at h
            rw [← h.2.1]
            exact habs
          · simp only [execAct, hf, hgl] at h
            rw [if_pos hti] at h
            split at h
            · simp at h
            · rename_i v2 st2 tr2 hcl
              have hsub := (del_cleanup_sublist f).2 par.title (deleteContent st page.id)
              rw [hcl] at hsub
              injection h with h1 h2
              injection h2 with h2 h3
              rw [← h2]
              exact lookupTitle_nil_of_sublist hsub habs

theorem for_all_dels_sublist : ∀ (ds : List Act) (fuel : Nat) (st : St),
    (∀ x ∈ ds, ∃ t, x = Act.del t) →
    ((for_all ds (execAct fuel) st).2.1.pages).Sublist st.pages := by
  intro ds
  induction ds with
  | nil =>
    intro fuel st _
    simp [for_all]
  | cons a ds ih =>
    intro fuel st hds
    obtain ⟨t, rfl⟩ := hds a (List.mem_cons_self a ds)
    rcases hr : execAct fuel (.del t) st with ⟨r1, st1, tr1⟩
    have hsub1 : st1.pages.Sublist st.pages := by
      have h0 := (del_cleanup_sublist fuel).1 t st
      rw [hr] at h0
      exact h0
    cases r1 with
    | error e =>
      simp [for_all, hr]
      exact hsub1
    | ok w =>
      rcases hrest : for_all ds (execAct fuel) st1 with ⟨r2, st2, tr2⟩
      have hsub2 := ih fuel st1 (fun x hx => hds x (List.mem_cons_of_mem _ hx))
      rw [hrest] at hsub2
      simp [for_all, hr, hrest]
      exact hsub2.trans hsub1


theorem for_all_dels_absent : ∀ (ds : List Act) (fuel : Nat) (st : St)
    (v : Option Page) (st1 : St) (tr : List Ev),
    (∀ x ∈ ds, ∃ t, x = Act.del t) →
    for_all ds (execAct fuel) st = (.ok v, st1, tr) →
    ∀ t, Act.del t ∈ ds → lookupTitle st1 t = [] := by
  intro ds
  induction ds with
  | nil =>
    intro fuel st v st1 tr _ _ t ht
    simp at ht
  | cons a ds ih =>
    intro fuel st v st1 tr hds hrun t ht
    obtain ⟨t0, rfl⟩ := hds a (List.mem_cons_self a ds)
    rcases hr : execAct fuel (.del t0) st with ⟨r1, sta, tra⟩
    cases r1 with
    | error e =>
      rw [for_all, hr] at hrun
      simp at hrun
    | ok w =>
      rcases hrest : for_all ds (execAct fuel) sta with ⟨r2, st2, tr2⟩
      rw [for_all, hr] at hrun
      dsimp only at hrun
      rw [hrest] at hrun
      dsimp only at hrun
      injection hrun with h1 h2
      injection h2 with h2 h3
      rw [← h2]
      rcases List.mem_cons.mp ht with heq | hmem
      · injection heq with heqt
        subst heqt
        have habs := del_success_absent fuel t st w sta tra hr
        have hsub := for_all_dels_sublist ds fuel sta
          (fun x hx => hds x (List.mem_cons_of_mem _ hx))
        rw [hrest] at hsub
        exact lookupTitle_nil_of_sublist hsub habs
      · rw [h1] at hrest
        exact ih fuel sta v st2 tr2
          (fun x hx => hds x (List.mem_cons_of_mem _ hx)) hrest t hmem

theorem for_all_dels_noop : ∀ (ds : List Act) (fuel : Nat) (st : St),
    (∀ x ∈ ds, ∃ t, x = Act.del t) →
    (∀ t, Act.del t ∈ ds → lookupTitle st t = []) →
    ∃ tr, for_all ds (execAct (fuel + 1)) st = (.ok none, st, tr) ∧
      ∀ e ∈ tr, e.isMutation = false := by
  intro ds
  induction ds with
  | nil =>
    intro fuel st _ _
    exact ⟨[], rfl, by simp⟩
  | cons a ds ih =>
    intro fuel st hds habs
    obtain ⟨t0, rfl⟩ := hds a (List.mem_cons_self a ds)
    have h0 : execAct (fuel + 1) (.del t0) st = (.ok none, st, [.lookup t0]) :=
      del_absent_noop fuel t0 st (habs t0 (List.mem_cons_self _ ds))
    obtain ⟨tr2, h2, hmut⟩ := ih fuel st
      (fun x hx => hds x (List.mem_cons_of_mem _ hx))
      (fun t htm => habs t (List.mem_cons_of_mem _ htm))
    refine ⟨.lookup t0 :: tr2, ?_, ?_⟩
    · rw [for_all, h0]
      dsimp only
      rw [h2]
      rfl
    · intro e he
      rcases List.mem_cons.mp he with rfl | hmem
      · rfl
      · exact hmut e hmem


/-- C3 (amended): a Delta consisting only of deletes is replay-idempotent —
after a successful execution, executing the same Delta again from the
resulting state returns the same result and the identical state, and the
second run's trace contains no mutations (lookups only).  The original
claim over every Delta is refuted by `replay_idempotence_counterexample`:
a second run re-submits updates, bumping the stored version number. -/
theorem deletes_only_delta_replay_idempotent (fuel : Nat) (d : Delta) (st : St)
    (v : Option Page) (st1 : St) (tr1 : List Ev)
    (h1 : d.start_renames = []) (h2 : d.adds = []) (h3 : d.finish_renames = [])
    (h4 : d.updates = [])
    (hdel : ∀ x ∈ d.deletes, ∃ t, x = Act.del t)
    (hrun : Delta.execute fuel d st = (.ok v, st1, tr1)) :
    ∃ tr2, Delta.execute fuel d st1 = (.ok v, st1, tr2) ∧
      ∀ e ∈ tr2, e.isMutation = false := by
  have hred : ∀ s : St, Delta.execute fuel d s =
      andThen (for_all d.deletes (execAct fuel) s) (fun s2 => (.ok none, s2, [])) := by
    intro s
    rw [Delta.execute, h1, h2, h3, h4]
    rcases hfa : for_all d.deletes (execAct fuel) s with ⟨r, s2, tra⟩
    cases r <;> simp [andThen, for_all]
  rw [hred st] at hrun
  rcases hfa : for_all d.deletes (execAct fuel) st with ⟨r1, s1, tra⟩
  rw [hfa] at hrun
  cases r1 with
  | error e => simp [andThen] at hrun
  | ok w =>
    simp only [andThen] at hrun
    injection hrun with hv hrest
    injection hrest with hst htr
    have hveq : v = none := by injection hv with h0; exact h0.symm
    subst hveq
    subst hst
    have habs := for_all_dels_absent d.deletes fuel st w s1 tra hdel hfa
    cases fuel with
    | zero =>
      cases hds : d.deletes with
      | nil =>
        refine ⟨[], ?_, by simp⟩
        rw [hred s1, hds]
        simp [for_all, andThen]
      | cons a l =>
        exfalso
        rw [hds] at hfa
        simp [for_all, execAct] at hfa
    | succ f =>
      obtain ⟨tr2, hnoop, hmut⟩ := for_all_dels_noop d.deletes f s1 hdel habs
      refine ⟨tr2, ?_, hmut⟩
      rw [hred s1, hnoop]
      simp [andThen]


/-- C3 counterexample: a Delta holding a single UpdatePage, executed twice
from a two-page store.  The first run stores version 2; the second run is
not a no-op: it issues another update call and leaves version 3, so the
final state after two runs differs from the state after one run. -/
theorem replay_idempotence_counterexample :
    Delta.execute 3
        { deletes := [], start_renames := [], updates := [.update "A" "b" []],
          adds := [], finish_renames := [] }
        { pages := [{ id := 0, parentId := none, title := "Home", version := some 1, body := "" },
                    { id := 1, parentId := some 0, title := "A", version := some 1, body := "x" }],
          homeId := 0, nextId := 2 } =
      (.ok none,
       { pages := [{ id := 0, parentId := none, title := "Home", version := some 1, body := "" },
                   { id := 1, parentId := some 0, title := "A", version := some 2, body := "b" }],
         homeId := 0, nextId := 2 },
       [.lookup "A", .updateCall 1 2 "A" (some 0) (some "b")]) ∧
    Delta.execute 3
        { deletes := [], start_renames := [], updates := [.update "A" "b" []],
          adds := [], finish_renames := [] }
        { pages := [{ id := 0, parentId := none, title := "Home", version := some 1, body := "" },
                    { id := 1, parentId := some 0, title := "A", version := some 2, body := "b" }],
          homeId := 0, nextId := 2 } =
      (.ok none,
       { pages := [{ id := 0, parentId := none, title := "Home", version := some 1, body := "" },
                   { id := 1, parentId := some 0, title := "A", version := some 3, body := "b" }],
         homeId := 0, nextId := 2 },
       [.lookup "A", .updateCall 1 3 "A" (some 0) (some "b")]) ∧
    ({ pages := [{ id := 0, parentId := none, title := "Home", version := some 1, body := "" },
                 { id := 1, parentId := some 0, title := "A", version := some 3, body := "b" }],
       homeId := 0, nextId := 2 } : St) ≠
      { pages := [{ id := 0, parentId := none, title := "Home", version := some 1, body := "" },
                  { id := 1, parentId := some 0, title := "A", version := some 2, body := "b" }],
        homeId := 0, nextId := 2 } ∧
    (Ev.updateCall 1 3 "A" (some 0) (some "b")).isMutation = true :=
  ⟨rfl, rfl, by decide, rfl⟩

theorem deletes_only_delta_replay_idempotent_witness :
    ∃ tr2,
      Delta.execute 5
          { deletes := [.del "C"], start_renames := [], updates := [],
            adds := [], finish_renames := [] }
          { pages := [{ id := 0, parentId := none, title := "Home", version := some 1, body := "" },
                      { id := 1, parentId := some 0, title := "A", version := some 1, body := "xA" }],
            homeId := 0, nextId := 4 } =
        (.ok none,
         { pages := [{ id := 0, parentId := none, title := "Home", version := some 1, body := "" },
                     { id := 1, parentId := some 0, title := "A", version := some 1, body := "xA" }],
           homeId := 0, nextId := 4 }, tr2) ∧
      ∀ e ∈ tr2, e.isMutation = false :=
  deletes_only_delta_replay_idempotent 5
    { deletes := [.del "C"], start_renames := [], updates := [],
      adds := [], finish_renames := [] }
    sampleSt none
    { pages := [{ id := 0, parentId := none, title := "Home", version := some 1, body := "" },
                { id := 1, parentId := some 0, title := "A", version := some 1, body := "xA" }],
      homeId := 0, nextId := 4 }
    [.lookup "C", .deleteCall 3, .lookup "F", .lookup "F", .deleteCall 2, .lookup "Home"]
    rfl rfl rfl rfl
    (by intro x hx; simp at hx; exact ⟨"C", hx⟩)
    rfl

end Junction
